import Mathlib

/-!
# Fraction (fraction.h): normalisation, arithmetic and formatting

A shallow embedding of the `Fraction` class of `src/fraction.h`.

* The C++ `int` fields are read as unbounded integers (`Int`); `/` and `%` on
  `int` are the truncating `Int.tdiv` and `Int.tmod`.  A second copy of the
  arithmetic (`setValue32`, `add32`, ...) wraps every result to 32 bits.
* `throw runtime_error("Denominator cannot be zero.")` is the error
  `FractionError.denominatorZero`.
* The `while` loop of `gcd` is a structural recursion on an iteration budget;
  the budget `b + 1` that `gcd` hands it is never used up.
* An integer division whose divisor is zero is undefined in C++; the embedding
  makes it the separate error `FractionError.divideByZero`, so that "the
  operation succeeds" also says that no such division is ever executed.
-/

namespace Fraction

/-- The two ways in which a member function of `Fraction` can fail to return. -/
inductive FractionError where
  /-- The `runtime_error("Denominator cannot be zero.")` thrown by `setValue`. -/
  | denominatorZero
  /-- An `int` division `x / 0`, which C++ leaves undefined. -/
  | divideByZero
deriving DecidableEq, Repr

end Fraction

/-- The private fields `numerator` and `denominator` of `class Fraction`. -/
structure Fraction where
  numerator : Int
  denominator : Int
deriving DecidableEq, Repr

namespace Fraction

deriving instance DecidableEq for Except

/-- The `abs` of `<cmath>` on `int`, over unbounded integers. -/
def abs (x : Int) : Int :=
  if x < 0 then -x else x

/-- The C++ expression `a / b` on `int`: truncating, undefined for `b == 0`. -/
def checkedDiv (a b : Int) : Except FractionError Int :=
  if b = 0 then .error .divideByZero else .ok (Int.tdiv a b)

/-- The loop of `Fraction::gcd` (fraction.h:196-201), run for at most `fuel`
iterations: `while (b > 0) { r = a % b; a = b; b = r; } return a;`. -/
def gcdLoop : Nat → Int → Int → Int
  | 0, a, _ => a
  | fuel + 1, a, b => if 0 < b then gcdLoop fuel b (Int.tmod a b) else a

/-- The member `Fraction::gcd` (fraction.h:194-202).  Each iteration replaces a
positive `b` by `a % b`, which is smaller, so `b + 1` iterations are enough for
the loop to reach its exit (`gcd_unfold` and `gcdLoop_fuel` below). -/
def gcd (a b : Int) : Int :=
  gcdLoop (b.toNat + 1) a b

/-- The member `Fraction::lcm` (fraction.h:186-188): `abs(a * b) / gcd(a, b)`. -/
def lcm (a b : Int) : Except FractionError Int :=
  checkedDiv (abs (a * b)) (gcd a b)

/-- The first half of `setValue` (fraction.h:91-95): a negative denominator
hands its sign to the numerator. -/
def signNormalize (numerator denominator : Int) : Int × Int :=
  if denominator < 0 then (-numerator, -denominator) else (numerator, denominator)

/-- The local `c` of `setValue` (fraction.h:97):
`gcd(abs(numerator), abs(denominator))` on the sign-normalised pair. -/
def reductionDivisor (numerator denominator : Int) : Int :=
  gcd (abs (signNormalize numerator denominator).1)
    (abs (signNormalize numerator denominator).2)

/-- The member `Fraction::setValue` (fraction.h:87-101), returning the fields it
stores. -/
def setValue (numerator denominator : Int) : Except FractionError Fraction :=
  if denominator = 0 then
    .error .denominatorZero
  else do
    let c := reductionDivisor numerator denominator
    let n ← checkedDiv (signNormalize numerator denominator).1 c
    let d ← checkedDiv (signNormalize numerator denominator).2 c
    pure ⟨n, d⟩

/-- The constructor `Fraction(int numerator, int denominator)` (fraction.h:64-66). -/
def construct (numerator denominator : Int) : Except FractionError Fraction :=
  setValue numerator denominator

/-- The private member `addByValue` (fraction.h:222-234). -/
def addByValue (this : Fraction) (bn bd : Int) : Except FractionError Fraction := do
  let an := this.numerator
  let ad := this.denominator
  let nd ← lcm ad bd
  let ax ← checkedDiv nd ad
  let bx ← checkedDiv nd bd
  let nn := (an * ax) + (bn * bx)
  construct nn nd

/-- The member `operator+` (fraction.h:110-112). -/
def add (this b : Fraction) : Except FractionError Fraction :=
  this.addByValue b.numerator b.denominator

/-- The member `operator-` (fraction.h:119-121). -/
def sub (this b : Fraction) : Except FractionError Fraction :=
  this.addByValue (-b.numerator) b.denominator

/-- The member `operator*` (fraction.h:129-131). -/
def mul (this b : Fraction) : Except FractionError Fraction :=
  construct (this.numerator * b.numerator) (this.denominator * b.denominator)

/-- The member `operator/` (fraction.h:138-140). -/
def div (this b : Fraction) : Except FractionError Fraction :=
  construct (this.numerator * b.denominator) (this.denominator * b.numerator)

/-- The invariant of section 3 of the specification: the denominator is
positive, numerator and denominator have no common factor, and zero is stored
as `0/1`. -/
def Valid (f : Fraction) : Prop :=
  0 < f.denominator ∧ Int.gcd f.numerator f.denominator = 1 ∧
    (f.numerator = 0 → f.denominator = 1)

instance (f : Fraction) : Decidable (Valid f) := by
  unfold Valid; infer_instance

/-- The loop of `Fraction::gcd` once more, with the exhaustion of the budget made
visible: `none` when the exit `b <= 0` has not been reached after `fuel` tests
of the loop condition. -/
def gcdRun : Nat → Int → Int → Option Int
  | 0, _, _ => none
  | fuel + 1, a, b => if 0 < b then gcdRun fuel b (Int.tmod a b) else some a

/-! ### Formatting -/

/-- The `std::to_string(int)` of `<string>`: the decimal digits, after a `-` for a
negative value. -/
def to_string (x : Int) : String :=
  if x < 0 then "-" ++ Nat.repr x.natAbs else Nat.repr x.natAbs

/-- The C++ expression `a % b` on `int`: the remainder of the truncating
division, undefined for `b == 0`. -/
def checkedMod (a b : Int) : Except FractionError Int :=
  if b = 0 then .error .divideByZero else .ok (Int.tmod a b)

/-- The private member `toString(int numerator, int denominator)`
(fraction.h:242-248): three `+=` on an empty string. -/
def toStringPair (numerator denominator : Int) : String :=
  (("" ++ to_string numerator) ++ "/") ++ to_string denominator

/-- The member `toString()` (fraction.h:148-150). -/
def toString (this : Fraction) : String :=
  toStringPair this.numerator this.denominator

/-- The member `toMixed()` (fraction.h:156-172). -/
def toMixed (this : Fraction) : Except FractionError String :=
  if abs this.numerator ≥ this.denominator then do
    let i ← checkedDiv this.numerator this.denominator
    let n ← checkedMod this.numerator this.denominator
    let s := to_string i
    let s := s ++ " "
    let s := if n ≠ 0 then s ++ toStringPair (abs n) this.denominator else s
    pure s
  else if this.numerator = 0 then
    pure "0"
  else
    pure this.toString

/-! ### The same arithmetic on 32-bit `int`

Every arithmetic result is taken modulo `2^32` into the range
`[-2^31, 2^31 - 1]`.  The loop of `gcd` only computes `a % b` for `b > 0`, which
cannot leave the range, so `gcd` itself is shared with the unbounded model. -/

/-- The value of a 32-bit signed `int` that an exact result wraps to. -/
def wrap (x : Int) : Int :=
  (x + 2147483648) % 4294967296 - 2147483648

/-- The values of a 32-bit signed `int`. -/
def InRange32 (x : Int) : Prop :=
  -2147483648 ≤ x ∧ x ≤ 2147483647

instance (x : Int) : Decidable (InRange32 x) := by
  unfold InRange32; infer_instance

/-- A Fraction whose two fields are 32-bit `int` values. -/
def Representable32 (f : Fraction) : Prop :=
  InRange32 f.numerator ∧ InRange32 f.denominator

instance (f : Fraction) : Decidable (Representable32 f) := by
  unfold Representable32; infer_instance

/-- The `abs` of `<cmath>` on a 32-bit `int`. -/
def abs32 (x : Int) : Int :=
  if x < 0 then wrap (-x) else x

/-- The expression `a / b` on 32-bit `int`. -/
def checkedDiv32 (a b : Int) : Except FractionError Int :=
  if b = 0 then .error .divideByZero else .ok (wrap (Int.tdiv a b))

/-- The member `Fraction::lcm` on 32-bit `int`. -/
def lcm32 (a b : Int) : Except FractionError Int :=
  checkedDiv32 (abs32 (wrap (a * b))) (gcd a b)

/-- The sign normalisation of `setValue` on 32-bit `int`. -/
def signNormalize32 (numerator denominator : Int) : Int × Int :=
  if denominator < 0 then (wrap (-numerator), wrap (-denominator))
  else (numerator, denominator)

/-- The member `Fraction::setValue` on 32-bit `int`. -/
def setValue32 (numerator denominator : Int) : Except FractionError Fraction :=
  if denominator = 0 then
    .error .denominatorZero
  else do
    let c := gcd (abs32 (signNormalize32 numerator denominator).1)
      (abs32 (signNormalize32 numerator denominator).2)
    let n ← checkedDiv32 (signNormalize32 numerator denominator).1 c
    let d ← checkedDiv32 (signNormalize32 numerator denominator).2 c
    pure ⟨n, d⟩

/-- The constructor `Fraction(int, int)` on 32-bit `int`. -/
def construct32 (numerator denominator : Int) : Except FractionError Fraction :=
  setValue32 numerator denominator

/-- The private member `addByValue` on 32-bit `int`. -/
def addByValue32 (this : Fraction) (bn bd : Int) : Except FractionError Fraction := do
  let an := this.numerator
  let ad := this.denominator
  let nd ← lcm32 ad bd
  let ax ← checkedDiv32 nd ad
  let bx ← checkedDiv32 nd bd
  let nn := wrap (wrap (an * ax) + wrap (bn * bx))
  construct32 nn nd

/-- The member `operator+` on 32-bit `int`. -/
def add32 (this b : Fraction) : Except FractionError Fraction :=
  this.addByValue32 b.numerator b.denominator

/-- The member `operator-` on 32-bit `int`. -/
def sub32 (this b : Fraction) : Except FractionError Fraction :=
  this.addByValue32 (wrap (-b.numerator)) b.denominator

/-- The member `operator*` on 32-bit `int`. -/
def mul32 (this b : Fraction) : Except FractionError Fraction :=
  construct32 (wrap (this.numerator * b.numerator)) (wrap (this.denominator * b.denominator))

/-- The member `operator/` on 32-bit `int`. -/
def div32 (this b : Fraction) : Except FractionError Fraction :=
  construct32 (wrap (this.numerator * b.denominator)) (wrap (this.denominator * b.numerator))

end Fraction

/-! ## The Euclidean loop -/

namespace Fraction

/-- Any two budgets above `b` give the loop the same result. -/
theorem gcdLoop_fuel (f₁ : Nat) :
    ∀ (f₂ : Nat) (a b : Int), b.toNat < f₁ → b.toNat < f₂ →
      gcdLoop f₁ a b = gcdLoop f₂ a b := by
  induction f₁ with
  | zero => intro f₂ a b h; omega
  | succ k ih =>
    intro f₂ a b h₁ h₂
    cases f₂ with
    | zero => omega
    | succ m =>
      simp only [gcdLoop]
      split
      · rename_i hb
        have hlt := Int.tmod_lt_of_pos a hb
        exact ih m b (Int.tmod a b) (by omega) (by omega)
      · rfl

/-- The loop equation of `Fraction::gcd`: one test of `b > 0`, one iteration,
and the rest of the loop. -/
theorem gcd_unfold (a b : Int) :
    gcd a b = if 0 < b then gcd b (Int.tmod a b) else a := by
  by_cases hb : 0 < b
  · have hlt := Int.tmod_lt_of_pos a hb
    rw [if_pos hb]
    show gcdLoop (b.toNat + 1) a b = gcdLoop ((Int.tmod a b).toNat + 1) b (Int.tmod a b)
    rw [gcdLoop, if_pos hb]
    exact gcdLoop_fuel b.toNat ((Int.tmod a b).toNat + 1) b (Int.tmod a b) (by omega) (by omega)
  · rw [if_neg hb]
    show gcdLoop (b.toNat + 1) a b = a
    rw [gcdLoop, if_neg hb]

/-- On non-negative arguments the loop computes the greatest common divisor. -/
theorem gcd_natCast (b : Nat) : ∀ a : Nat, gcd (a : Int) (b : Int) = ((Nat.gcd a b : Nat) : Int) := by
  induction b using Nat.strong_induction_on with
  | _ b ih =>
    intro a
    rw [gcd_unfold]
    by_cases hb : b = 0
    · subst hb; simp
    · have hpos : 0 < b := Nat.pos_of_ne_zero hb
      have hb' : (0 : Int) < (b : Int) := by exact_mod_cast hpos
      rw [if_pos hb', ← Int.ofNat_tmod, ih (a % b) (Nat.mod_lt a hpos) b]
      congr 1
      rw [Nat.gcd_comm a b, Nat.gcd_rec b a, Nat.gcd_comm]

/-- The `abs` of the embedding is the absolute value. -/
theorem abs_eq_natAbs (x : Int) : abs x = (x.natAbs : Int) := by
  unfold abs; split <;> omega

/-! ## Normalisation -/

/-- The divisor `c` of `setValue` is the greatest common divisor of the two
arguments. -/
theorem reductionDivisor_eq (n d : Int) : reductionDivisor n d = ((Int.gcd n d : Nat) : Int) := by
  unfold reductionDivisor signNormalize
  rw [abs_eq_natAbs, abs_eq_natAbs, gcd_natCast]
  split <;> simp [Int.gcd]

/-- The divisor `c` of `setValue` is positive whenever the denominator is not
zero. -/
theorem reductionDivisor_pos (n d : Int) (hd : d ≠ 0) : 0 < reductionDivisor n d := by
  rw [reductionDivisor_eq]
  exact_mod_cast Int.gcd_pos_of_ne_zero_right n hd

theorem reductionDivisor_dvd_left (n d : Int) : reductionDivisor n d ∣ n := by
  rw [reductionDivisor_eq]; exact Int.gcd_dvd_left

theorem reductionDivisor_dvd_right (n d : Int) : reductionDivisor n d ∣ d := by
  rw [reductionDivisor_eq]; exact Int.gcd_dvd_right

/-- What `setValue` stores when the denominator is not zero. -/
theorem setValue_ok (n d : Int) (hd : d ≠ 0) :
    setValue n d = .ok ⟨Int.tdiv (signNormalize n d).1 (reductionDivisor n d),
      Int.tdiv (signNormalize n d).2 (reductionDivisor n d)⟩ := by
  have hc : reductionDivisor n d ≠ 0 := ne_of_gt (reductionDivisor_pos n d hd)
  simp only [setValue, if_neg hd, checkedDiv, if_neg hc]
  rfl

/-- Dividing a pair with positive second component by its greatest common
divisor: the quotients are coprime, the second one is positive, and the ratio
is unchanged. -/
theorem reduce_core (n d : Int) (hd : 0 < d) :
    0 < Int.tdiv d (Int.gcd n d) ∧
      Int.gcd (Int.tdiv n (Int.gcd n d)) (Int.tdiv d (Int.gcd n d)) = 1 ∧
      Int.tdiv n (Int.gcd n d) * d = n * Int.tdiv d (Int.gcd n d) := by
  have hg : 0 < Int.gcd n d := Int.gcd_pos_of_ne_zero_right n (ne_of_gt hd)
  have hg' : (0 : Int) < (Int.gcd n d : Int) := by exact_mod_cast hg
  have h1 : ((Int.gcd n d : Nat) : Int) ∣ n := Int.gcd_dvd_left
  have h2 : ((Int.gcd n d : Nat) : Int) ∣ d := Int.gcd_dvd_right
  rw [Int.tdiv_eq_ediv_of_dvd h1, Int.tdiv_eq_ediv_of_dvd h2]
  refine ⟨Int.ediv_pos_of_pos_of_dvd hd (le_of_lt hg') h2, Int.gcd_div_gcd_div_gcd hg, ?_⟩
  calc n / (Int.gcd n d : Int) * d
      = n / (Int.gcd n d : Int) * (d / (Int.gcd n d : Int) * (Int.gcd n d : Int)) := by
        rw [Int.ediv_mul_cancel h2]
    _ = (n / (Int.gcd n d : Int) * (Int.gcd n d : Int)) * (d / (Int.gcd n d : Int)) := by ring
    _ = n * (d / (Int.gcd n d : Int)) := by rw [Int.ediv_mul_cancel h1]

/-- A positive denominator coprime to a zero numerator is 1. -/
theorem den_eq_one_of_num_zero (n d : Int) (hd : 0 < d) (h : Int.gcd n d = 1) (hn : n = 0) :
    d = 1 := by
  subst hn
  rw [Int.gcd_zero_left] at h
  omega

/-- The postcondition of `setValue`: it returns, the stored pair satisfies the
invariant, and it denotes the same rational number as the arguments. -/
theorem setValue_spec (n d : Int) (hd : d ≠ 0) :
    ∃ r, setValue n d = .ok r ∧ Valid r ∧ r.numerator * d = n * r.denominator := by
  refine ⟨_, setValue_ok n d hd, ?_⟩
  rw [reductionDivisor_eq]
  unfold signNormalize
  by_cases hneg : d < 0
  · have hpos : 0 < -d := by omega
    obtain ⟨h1, h2, h3⟩ := reduce_core (-n) (-d) hpos
    rw [Int.gcd_neg, Int.neg_gcd] at h1 h2 h3
    simp only [if_pos hneg]
    refine ⟨⟨h1, h2, den_eq_one_of_num_zero _ _ h1 h2⟩, ?_⟩
    linarith
  · have hpos : 0 < d := by omega
    obtain ⟨h1, h2, h3⟩ := reduce_core n d hpos
    simp only [if_neg hneg]
    exact ⟨⟨h1, h2, den_eq_one_of_num_zero _ _ h1 h2⟩, h3⟩

/-- Two pairs that satisfy the invariant and denote the same rational number are
the same pair. -/
theorem valid_unique (r s : Fraction) (hr : Valid r) (hs : Valid s)
    (h : r.numerator * s.denominator = s.numerator * r.denominator) : r = s := by
  obtain ⟨rn, rd⟩ := r
  obtain ⟨sn, sd⟩ := s
  obtain ⟨hr1, hr2, _⟩ := hr
  obtain ⟨hs1, hs2, _⟩ := hs
  simp only at hr1 hr2 hs1 hs2 h
  have hrd : (rd : ℚ) ≠ 0 := by exact_mod_cast (ne_of_gt hr1)
  have hsd : (sd : ℚ) ≠ 0 := by exact_mod_cast (ne_of_gt hs1)
  have hq : (rn : ℚ) / rd = (sn : ℚ) / sd := by
    rw [div_eq_div_iff hrd hsd]
    exact_mod_cast h
  obtain ⟨e1, e2⟩ := Rat.div_int_inj hr1 hs1 hr2 hs2 hq
  rw [e1, e2]

/-- Arguments that denote the same rational number are stored as the same pair. -/
theorem setValue_congr (n₁ d₁ n₂ d₂ : Int) (h₁ : d₁ ≠ 0) (h₂ : d₂ ≠ 0)
    (h : n₁ * d₂ = n₂ * d₁) : setValue n₁ d₁ = setValue n₂ d₂ := by
  obtain ⟨r, hr, hrv, hre⟩ := setValue_spec n₁ d₁ h₁
  obtain ⟨s, hs, hsv, hse⟩ := setValue_spec n₂ d₂ h₂
  rw [hr, hs]
  congr 1
  apply valid_unique r s hrv hsv
  have hne : d₁ * d₂ ≠ 0 := mul_ne_zero h₁ h₂
  apply mul_right_cancel₀ hne
  calc r.numerator * s.denominator * (d₁ * d₂)
      = (r.numerator * d₁) * s.denominator * d₂ := by ring
    _ = (n₁ * r.denominator) * s.denominator * d₂ := by rw [hre]
    _ = (n₁ * d₂) * r.denominator * s.denominator := by ring
    _ = (n₂ * d₁) * r.denominator * s.denominator := by rw [h]
    _ = (n₂ * s.denominator) * r.denominator * d₁ := by ring
    _ = (s.numerator * d₂) * r.denominator * d₁ := by rw [hse]
    _ = s.numerator * r.denominator * (d₁ * d₂) := by ring

/-- A pair that satisfies the invariant is stored unchanged. -/
theorem setValue_of_valid (f : Fraction) (hf : Valid f) :
    setValue f.numerator f.denominator = .ok f := by
  obtain ⟨r, hr, hrv, hre⟩ := setValue_spec f.numerator f.denominator (ne_of_gt hf.1)
  rw [hr, valid_unique r f hrv hf hre]

/-- On a non-negative second argument, `gcd(abs(n), d)` is the greatest common
divisor of `n` and `d`. -/
theorem gcd_abs_eq (n d : Int) (hd : 0 ≤ d) : gcd (abs n) d = ((Int.gcd n d : Nat) : Int) := by
  have h : d = ((d.natAbs : Nat) : Int) := by omega
  rw [abs_eq_natAbs]
  conv_lhs => rw [h]
  rw [gcd_natCast]
  rfl

/-- The divisor `c` of `setValue` does not depend on the sign normalisation. -/
theorem reductionDivisor_eq_gcd_abs (n d : Int) :
    reductionDivisor n d = gcd (abs n) (abs d) := by
  rw [reductionDivisor_eq, abs_eq_natAbs, abs_eq_natAbs, gcd_natCast]
  rfl

/-- The invariant, said with the `gcd` of the program as section 3 of the
specification writes it: `denominator > 0` and
`gcd(abs(numerator), denominator) == 1`. -/
theorem valid_iff (f : Fraction) :
    Valid f ↔ 0 < f.denominator ∧ gcd (abs f.numerator) f.denominator = 1 := by
  constructor
  · rintro ⟨h1, h2, _⟩
    refine ⟨h1, ?_⟩
    rw [gcd_abs_eq _ _ (le_of_lt h1), h2]
    rfl
  · rintro ⟨h1, h2⟩
    rw [gcd_abs_eq _ _ (le_of_lt h1)] at h2
    have h3 : Int.gcd f.numerator f.denominator = 1 := by exact_mod_cast h2
    exact ⟨h1, h3, den_eq_one_of_num_zero _ _ h1 h3⟩

/-! ## Denominator alignment -/

/-- On positive arguments `lcm` returns: its divisor is not zero, and the result
is a positive common multiple with `lcm * gcd = a * b`. -/
theorem lcm_ok (a b : Int) (ha : 0 < a) (hb : 0 < b) :
    ∃ l, lcm a b = .ok l ∧ 0 < l ∧ l * ((Int.gcd a b : Nat) : Int) = a * b ∧ a ∣ l ∧ b ∣ l := by
  have hg : gcd a b = ((Int.gcd a b : Nat) : Int) := by
    have h := gcd_abs_eq a b (le_of_lt hb)
    rwa [abs, if_neg (by omega)] at h
  have hgpos : (0 : Int) < ((Int.gcd a b : Nat) : Int) := by
    exact_mod_cast Int.gcd_pos_of_ne_zero_left b (ne_of_gt ha)
  have hab : 0 < a * b := mul_pos ha hb
  obtain ⟨j, hj⟩ : ((Int.gcd a b : Nat) : Int) ∣ a := Int.gcd_dvd_left
  obtain ⟨k, hk⟩ : ((Int.gcd a b : Nat) : Int) ∣ b := Int.gcd_dvd_right
  generalize ((Int.gcd a b : Nat) : Int) = g at hg hgpos hj hk
  have hdiv : Int.tdiv (a * b) g = j * g * k := by
    have e : a * b = g * (j * g * k) := by rw [hj, hk]; ring
    rw [e, Int.mul_tdiv_cancel_left _ (ne_of_gt hgpos)]
  refine ⟨j * g * k, ?_, ?_, ?_, ?_, ?_⟩
  · simp only [lcm, checkedDiv, hg, if_neg (ne_of_gt hgpos), abs, if_neg (not_lt.mpr (le_of_lt hab)),
      hdiv]
  · have hjpos : 0 < j := by
      rw [hj] at ha
      exact (mul_pos_iff_of_pos_left hgpos).mp ha
    have hkpos : 0 < k := by
      rw [hk] at hb
      exact (mul_pos_iff_of_pos_left hgpos).mp hb
    exact mul_pos (mul_pos hjpos hgpos) hkpos
  · rw [hj, hk]; ring
  · exact ⟨k, by rw [hj]; ring⟩
  · exact ⟨j, by rw [hk]; ring⟩

/-- With positive denominators, `addByValue` returns what the constructor
returns on the cross-multiplied sum. -/
theorem addByValue_eq (x : Fraction) (bn bd : Int) (hx : 0 < x.denominator) (hb : 0 < bd) :
    x.addByValue bn bd =
      construct (x.numerator * bd + bn * x.denominator) (x.denominator * bd) := by
  obtain ⟨l, hl, hlpos, _, hdx, hdb⟩ := lcm_ok x.denominator bd hx hb
  have e1 : Int.tdiv l x.denominator * x.denominator = l := Int.tdiv_mul_cancel hdx
  have e2 : Int.tdiv l bd * bd = l := Int.tdiv_mul_cancel hdb
  simp only [addByValue, hl, checkedDiv, if_neg (ne_of_gt hx), if_neg (ne_of_gt hb), bind,
    Except.bind, construct]
  apply setValue_congr _ _ _ _ (ne_of_gt hlpos) (ne_of_gt (mul_pos hx hb))
  calc (x.numerator * Int.tdiv l x.denominator + bn * Int.tdiv l bd) * (x.denominator * bd)
      = x.numerator * (Int.tdiv l x.denominator * x.denominator) * bd
          + bn * (Int.tdiv l bd * bd) * x.denominator := by ring
    _ = (x.numerator * bd + bn * x.denominator) * l := by rw [e1, e2]; ring

/-- Negating the numerator keeps the invariant. -/
theorem valid_neg (b : Fraction) (hb : Valid b) : Valid ⟨-b.numerator, b.denominator⟩ := by
  obtain ⟨h1, h2, h3⟩ := hb
  refine ⟨h1, ?_, ?_⟩
  · simpa [Int.neg_gcd] using h2
  · intro h
    exact h3 (by simpa using h)

/-! ## Construction -/

/-- Over unbounded integers, constructing a Fraction from `(n, d)` fails with the
division-by-zero error exactly when `d = 0`, and for every `d ≠ 0` the
construction succeeds.  On 32-bit `int` the second half has one exception, the
pair `(0, -2^31)`. -/
theorem construct_fails_iff_zero_denominator (n d : Int) :
    construct n 0 = .error .denominatorZero ∧
      (construct n d = .error .denominatorZero ↔ d = 0) ∧
      ((∃ r, construct n d = .ok r) ↔ d ≠ 0) := by
  refine ⟨by simp [construct, setValue], ?_, ?_⟩
  · constructor
    · intro h
      by_contra hd
      obtain ⟨r, hr, _⟩ := setValue_spec n d hd
      rw [construct, hr] at h
      cases h
    · intro hd
      simp [construct, setValue, hd]
  · constructor
    · rintro ⟨r, hr⟩ hd
      subst hd
      simp [construct, setValue] at hr
    · intro hd
      obtain ⟨r, hr, _⟩ := setValue_spec n d hd
      exact ⟨r, hr⟩

/-- C2: for every `n` and every `d ≠ 0` the constructed Fraction has a positive
denominator, and `Fraction(n, -d)` is the same (numerator, denominator) pair as
`Fraction(-n, d)`. -/
theorem construct_sign_canonical (n d : Int) (hd : d ≠ 0) :
    (∃ r, construct n d = .ok r ∧ 0 < r.denominator) ∧
      ∃ s, construct n (-d) = .ok s ∧ construct (-n) d = .ok s ∧ 0 < s.denominator := by
  constructor
  · obtain ⟨r, hr, hv, _⟩ := setValue_spec n d hd
    exact ⟨r, hr, hv.1⟩
  · obtain ⟨s, hs, hv, _⟩ := setValue_spec (-n) d hd
    refine ⟨s, ?_, hs, hv.1⟩
    rw [construct, setValue_congr n (-d) (-n) d (by omega) hd (by ring)]
    exact hs

theorem construct_sign_canonical_witness :
    construct 3 (-6) = .ok ⟨-1, 2⟩ ∧ construct (-3) 6 = .ok ⟨-1, 2⟩ ∧
      ((∃ r, construct 3 6 = .ok r ∧ 0 < r.denominator) ∧
        ∃ s, construct 3 (-6) = .ok s ∧ construct (-3) 6 = .ok s ∧ 0 < s.denominator) :=
  ⟨by decide, by decide, construct_sign_canonical 3 6 (by decide)⟩

/-- C3: for every `n` and every `d ≠ 0` the constructed Fraction `r` is in lowest
terms: `gcd(abs(r.numerator), r.denominator)` is 1 (for the `gcd` of the program
and for the mathematical one), and when `n = 0` the result is exactly `0/1`. -/
theorem construct_lowest_terms (n d : Int) (hd : d ≠ 0) :
    ∃ r, construct n d = .ok r ∧ gcd (abs r.numerator) r.denominator = 1 ∧
      Int.gcd r.numerator r.denominator = 1 ∧ (n = 0 → r = ⟨0, 1⟩) := by
  obtain ⟨r, hr, hv, he⟩ := setValue_spec n d hd
  refine ⟨r, hr, ?_, hv.2.1, ?_⟩
  · rw [gcd_abs_eq _ _ (le_of_lt hv.1), hv.2.1]
    rfl
  · intro hn
    have h0 : r.numerator = 0 := by
      rw [hn, zero_mul] at he
      rcases mul_eq_zero.mp he with h | h
      · exact h
      · exact absurd h hd
    obtain ⟨rn, rd⟩ := r
    simp only at h0
    have h1 := hv.2.2 h0
    simp only at h1
    rw [h0, h1]

theorem construct_lowest_terms_witness :
    construct 0 (-7) = .ok ⟨0, 1⟩ ∧ construct 12 (-18) = .ok ⟨-2, 3⟩ ∧
      ∃ r, construct 12 (-18) = .ok r ∧ gcd (abs r.numerator) r.denominator = 1 ∧
        Int.gcd r.numerator r.denominator = 1 ∧ ((12 : Int) = 0 → r = ⟨0, 1⟩) :=
  ⟨by decide, by decide, construct_lowest_terms 12 (-18) (by decide)⟩

/-- C4: normalisation preserves the rational value: for every `n` and every
`d ≠ 0` the divisor `c = gcd(|n|, |d|)` computed in `setValue` is at least 1 and
divides both `n` and `d`, the two stored quotients are exact, and the
constructed Fraction `r` satisfies `r.numerator * d = n * r.denominator`. -/
theorem construct_preserves_value (n d : Int) (hd : d ≠ 0) :
    reductionDivisor n d = gcd (abs n) (abs d) ∧ 1 ≤ reductionDivisor n d ∧
      reductionDivisor n d ∣ n ∧ reductionDivisor n d ∣ d ∧
      ∃ r, construct n d = .ok r ∧
        r.numerator * reductionDivisor n d = (signNormalize n d).1 ∧
        r.denominator * reductionDivisor n d = (signNormalize n d).2 ∧
        r.numerator * d = n * r.denominator := by
  refine ⟨reductionDivisor_eq_gcd_abs n d, reductionDivisor_pos n d hd,
    reductionDivisor_dvd_left n d, reductionDivisor_dvd_right n d, ?_⟩
  obtain ⟨r, hr, _, he⟩ := setValue_spec n d hd
  have hr' := hr
  rw [setValue_ok n d hd] at hr'
  injection hr' with hr'
  refine ⟨r, hr, ?_, ?_, he⟩
  · rw [← hr']
    apply Int.tdiv_mul_cancel
    unfold signNormalize
    split
    · exact (Int.dvd_neg).mpr (reductionDivisor_dvd_left n d)
    · exact reductionDivisor_dvd_left n d
  · rw [← hr']
    apply Int.tdiv_mul_cancel
    unfold signNormalize
    split
    · exact (Int.dvd_neg).mpr (reductionDivisor_dvd_right n d)
    · exact reductionDivisor_dvd_right n d

theorem construct_preserves_value_witness :
    reductionDivisor 12 (-18) = 6 ∧ construct 12 (-18) = .ok ⟨-2, 3⟩ ∧
      (reductionDivisor 12 (-18) = gcd (abs 12) (abs (-18)) ∧ 1 ≤ reductionDivisor 12 (-18) ∧
      reductionDivisor 12 (-18) ∣ 12 ∧ reductionDivisor 12 (-18) ∣ -18 ∧
      ∃ r, construct 12 (-18) = .ok r ∧
        r.numerator * reductionDivisor 12 (-18) = (signNormalize 12 (-18)).1 ∧
        r.denominator * reductionDivisor 12 (-18) = (signNormalize 12 (-18)).2 ∧
        r.numerator * -18 = 12 * r.denominator) :=
  ⟨by decide, by decide, construct_preserves_value 12 (-18) (by decide)⟩

/-! ## Arithmetic -/

/-- C5: for two valid Fractions `a = an/ad` and `b = bn/bd`, the lcm-aligned
addition `a + b` returns the exact rational sum in reduced form: it returns the
Fraction that `construct(an*bd + bn*ad, ad*bd)` returns, which satisfies the
invariant and denotes `(an*bd + bn*ad) / (ad*bd)`. -/
theorem add_exact (a b : Fraction) (ha : Valid a) (hb : Valid b) :
    add a b = construct (a.numerator * b.denominator + b.numerator * a.denominator)
        (a.denominator * b.denominator) ∧
      ∃ r, add a b = .ok r ∧ Valid r ∧
        r.numerator * (a.denominator * b.denominator) =
          (a.numerator * b.denominator + b.numerator * a.denominator) * r.denominator := by
  have h := addByValue_eq a b.numerator b.denominator ha.1 hb.1
  refine ⟨h, ?_⟩
  obtain ⟨r, hr, hv, he⟩ := setValue_spec
    (a.numerator * b.denominator + b.numerator * a.denominator)
    (a.denominator * b.denominator) (ne_of_gt (mul_pos ha.1 hb.1))
  exact ⟨r, by rw [add, h, construct, hr], hv, he⟩

theorem add_exact_witness :
    construct 1 2 = .ok ⟨1, 2⟩ ∧ construct 1 3 = .ok ⟨1, 3⟩ ∧
      add ⟨1, 2⟩ ⟨1, 3⟩ = .ok ⟨5, 6⟩ ∧
      (add ⟨1, 2⟩ ⟨1, 3⟩ = construct (1 * 3 + 1 * 2) (2 * 3) ∧
        ∃ r, add ⟨1, 2⟩ ⟨1, 3⟩ = .ok r ∧ Valid r ∧
          r.numerator * (2 * 3) = (1 * 3 + 1 * 2) * r.denominator) :=
  ⟨by decide, by decide, by decide, add_exact ⟨1, 2⟩ ⟨1, 3⟩ (by decide) (by decide)⟩

/-- Over unbounded integers, for valid Fractions `x` and `y`, the division
`x / y` fails exactly when the numerator of `y` is 0, and then with the
division-by-zero error; otherwise it returns what
`construct(x.numerator * y.denominator, x.denominator * y.numerator)` returns.
On 32-bit `int` the product `x.denominator * y.numerator` can wrap to 0 without
the numerator of `y` being 0. -/
theorem div_fails_iff_zero_numerator (x y : Fraction) (hx : Valid x) (_hy : Valid y) :
    (div x y = .error .denominatorZero ↔ y.numerator = 0) ∧
      ((∃ e, div x y = .error e) ↔ y.numerator = 0) ∧
      (y.numerator ≠ 0 → ∃ r, div x y = .ok r ∧
        construct (x.numerator * y.denominator) (x.denominator * y.numerator) = .ok r) ∧
      (∀ d : Int, d ≠ 0 → ∃ z, construct 0 d = .ok z ∧ div x z = .error .denominatorZero) := by
  have hxd : x.denominator ≠ 0 := ne_of_gt hx.1
  have hfail : ∀ z : Fraction, z.numerator = 0 → div x z = .error .denominatorZero := by
    intro z hz
    simp [div, construct, setValue, hz]
  have hsucc : y.numerator ≠ 0 → ∃ r, div x y = .ok r := by
    intro hy0
    obtain ⟨r, hr, _⟩ := setValue_spec (x.numerator * y.denominator)
      (x.denominator * y.numerator) (mul_ne_zero hxd hy0)
    exact ⟨r, hr⟩
  refine ⟨⟨?_, hfail y⟩, ⟨?_, fun h => ⟨_, hfail y h⟩⟩, ?_, ?_⟩
  · intro h
    by_contra hy0
    obtain ⟨r, hr⟩ := hsucc hy0
    rw [hr] at h
    cases h
  · rintro ⟨e, he⟩
    by_contra hy0
    obtain ⟨r, hr⟩ := hsucc hy0
    rw [hr] at he
    cases he
  · intro hy0
    obtain ⟨r, hr⟩ := hsucc hy0
    exact ⟨r, hr, hr⟩
  · intro d hd
    obtain ⟨z, hz, _, he⟩ := setValue_spec 0 d hd
    refine ⟨z, hz, hfail z ?_⟩
    rw [zero_mul] at he
    rcases mul_eq_zero.mp he with h | h
    · exact h
    · exact absurd h hd

/-- C7: the invariant is preserved by every operation: for valid Fractions `a`
and `b`, `a + b`, `a - b` and `a * b` always succeed, `a / b` succeeds whenever
the numerator of `b` is not zero, and every result again has a positive
denominator and is in lowest terms with zero stored as `0/1`. -/
theorem operations_preserve_invariant (a b : Fraction) (ha : Valid a) (hb : Valid b) :
    (∃ r, add a b = .ok r ∧ Valid r) ∧ (∃ r, sub a b = .ok r ∧ Valid r) ∧
      (∃ r, mul a b = .ok r ∧ Valid r) ∧
      (b.numerator ≠ 0 → ∃ r, div a b = .ok r ∧ Valid r) := by
  have hne : a.denominator * b.denominator ≠ 0 := ne_of_gt (mul_pos ha.1 hb.1)
  refine ⟨?_, ?_, ?_, ?_⟩
  · obtain ⟨r, hr, hv, _⟩ := setValue_spec
      (a.numerator * b.denominator + b.numerator * a.denominator) _ hne
    exact ⟨r, by rw [add, addByValue_eq a _ _ ha.1 hb.1, construct, hr], hv⟩
  · obtain ⟨r, hr, hv, _⟩ := setValue_spec
      (a.numerator * b.denominator + -b.numerator * a.denominator) _ hne
    exact ⟨r, by rw [sub, addByValue_eq a _ _ ha.1 hb.1, construct, hr], hv⟩
  · obtain ⟨r, hr, hv, _⟩ := setValue_spec (a.numerator * b.numerator) _ hne
    exact ⟨r, hr, hv⟩
  · intro hb0
    obtain ⟨r, hr, hv, _⟩ := setValue_spec (a.numerator * b.denominator)
      (a.denominator * b.numerator) (mul_ne_zero (ne_of_gt ha.1) hb0)
    exact ⟨r, hr, hv⟩

theorem operations_preserve_invariant_witness :
    add ⟨1, 6⟩ ⟨-2, 3⟩ = .ok ⟨-1, 2⟩ ∧ sub ⟨1, 6⟩ ⟨-2, 3⟩ = .ok ⟨5, 6⟩ ∧
      mul ⟨1, 6⟩ ⟨-2, 3⟩ = .ok ⟨-1, 9⟩ ∧ div ⟨1, 6⟩ ⟨-2, 3⟩ = .ok ⟨-1, 4⟩ ∧
      ((∃ r, add ⟨1, 6⟩ ⟨-2, 3⟩ = .ok r ∧ Valid r) ∧
        (∃ r, sub ⟨1, 6⟩ ⟨-2, 3⟩ = .ok r ∧ Valid r) ∧
        (∃ r, mul ⟨1, 6⟩ ⟨-2, 3⟩ = .ok r ∧ Valid r) ∧
        ((-2 : Int) ≠ 0 → ∃ r, div ⟨1, 6⟩ ⟨-2, 3⟩ = .ok r ∧ Valid r)) :=
  ⟨by decide, by decide, by decide, by decide,
    operations_preserve_invariant ⟨1, 6⟩ ⟨-2, 3⟩ (by decide) (by decide)⟩

/-- C8: for valid Fractions `a` and `b = bn/bd`, subtraction is addition of the
negated operand: `construct(-bn, bd)` returns the pair `(-bn, bd)`, and `a - b`
returns what `a + construct(-bn, bd)` returns, which is a Fraction. -/
theorem sub_eq_add_neg (a b : Fraction) (ha : Valid a) (hb : Valid b) :
    ∃ nb, construct (-b.numerator) b.denominator = .ok nb ∧
      nb = ⟨-b.numerator, b.denominator⟩ ∧ sub a b = add a nb ∧
      ∃ r, sub a b = .ok r ∧ add a nb = .ok r := by
  refine ⟨⟨-b.numerator, b.denominator⟩, setValue_of_valid _ (valid_neg b hb), rfl, rfl, ?_⟩
  obtain ⟨r, hr, _⟩ := setValue_spec
    (a.numerator * b.denominator + -b.numerator * a.denominator)
    (a.denominator * b.denominator) (ne_of_gt (mul_pos ha.1 hb.1))
  have hs : sub a b = .ok r := by
    rw [sub, addByValue_eq a _ _ ha.1 hb.1, construct, hr]
  exact ⟨r, hs, hs⟩

theorem sub_eq_add_neg_witness :
    sub ⟨1, 2⟩ ⟨1, 3⟩ = .ok ⟨1, 6⟩ ∧ add ⟨1, 2⟩ ⟨-1, 3⟩ = .ok ⟨1, 6⟩ ∧
      ∃ nb, construct (-1) 3 = .ok nb ∧ nb = ⟨-1, 3⟩ ∧ sub ⟨1, 2⟩ ⟨1, 3⟩ = add ⟨1, 2⟩ nb ∧
        ∃ r, sub ⟨1, 2⟩ ⟨1, 3⟩ = .ok r ∧ add ⟨1, 2⟩ nb = .ok r :=
  ⟨by decide, by decide, sub_eq_add_neg ⟨1, 2⟩ ⟨1, 3⟩ (by decide) (by decide)⟩

/-- C9: for every valid Fraction `x` whose numerator is not zero, positive or
negative, `x / x` succeeds and is `Fraction(1, 1)`, the pair `(1, 1)`. -/
theorem div_self_eq_one (x : Fraction) (hx : Valid x) (hn : x.numerator ≠ 0) :
    construct 1 1 = .ok ⟨1, 1⟩ ∧ div x x = .ok ⟨1, 1⟩ := by
  have h1 : construct 1 1 = .ok ⟨1, 1⟩ := by decide
  refine ⟨h1, ?_⟩
  rw [← h1]
  exact setValue_congr _ _ 1 1 (mul_ne_zero (ne_of_gt hx.1) hn) (by decide) (by ring)

theorem div_self_eq_one_witness :
    div ⟨3, 4⟩ ⟨3, 4⟩ = .ok ⟨1, 1⟩ ∧
      (construct 1 1 = .ok ⟨1, 1⟩ ∧ div ⟨-3, 4⟩ ⟨-3, 4⟩ = .ok ⟨1, 1⟩) :=
  ⟨by decide, div_self_eq_one ⟨-3, 4⟩ (by decide) (by decide)⟩

/-- C10: for every valid Fraction `x`, `Fraction(0, 1) + x` is exactly the
(numerator, denominator) pair of `x`. -/
theorem zero_add_eq (x : Fraction) (hx : Valid x) :
    construct 0 1 = .ok ⟨0, 1⟩ ∧ add ⟨0, 1⟩ x = .ok x := by
  refine ⟨by decide, ?_⟩
  rw [add, addByValue_eq ⟨0, 1⟩ _ _ (by decide) hx.1, construct]
  have e1 : (0 : Int) * x.denominator + x.numerator * 1 = x.numerator := by ring
  have e2 : (1 : Int) * x.denominator = x.denominator := by ring
  simp only [e1, e2]
  exact setValue_of_valid x hx

theorem zero_add_eq_witness :
    add ⟨0, 1⟩ ⟨-7, 2⟩ = .ok ⟨-7, 2⟩ ∧
      (construct 0 1 = .ok ⟨0, 1⟩ ∧ add ⟨0, 1⟩ ⟨-7, 2⟩ = .ok ⟨-7, 2⟩) :=
  ⟨by decide, zero_add_eq ⟨-7, 2⟩ (by decide)⟩

/-- C11: for every valid Fraction `x`, `Fraction(1, 1) * x` is exactly the
(numerator, denominator) pair of `x`; as a multiplication example,
`Fraction(3,4) * Fraction(2,3)` is `1/2`. -/
theorem one_mul_eq (x : Fraction) (hx : Valid x) :
    construct 1 1 = .ok ⟨1, 1⟩ ∧ mul ⟨1, 1⟩ x = .ok x ∧
      mul ⟨3, 4⟩ ⟨2, 3⟩ = .ok ⟨1, 2⟩ := by
  refine ⟨by decide, ?_, by decide⟩
  have e1 : (1 : Int) * x.numerator = x.numerator := by ring
  have e2 : (1 : Int) * x.denominator = x.denominator := by ring
  simp only [mul, construct, e1, e2]
  exact setValue_of_valid x hx

theorem one_mul_eq_witness :
    construct 3 4 = .ok ⟨3, 4⟩ ∧ construct 2 3 = .ok ⟨2, 3⟩ ∧
      mul ⟨1, 1⟩ ⟨-7, 2⟩ = .ok ⟨-7, 2⟩ ∧
      (construct 1 1 = .ok ⟨1, 1⟩ ∧ mul ⟨1, 1⟩ ⟨-7, 2⟩ = .ok ⟨-7, 2⟩ ∧
        mul ⟨3, 4⟩ ⟨2, 3⟩ = .ok ⟨1, 2⟩) :=
  ⟨by decide, by decide, by decide, one_mul_eq ⟨-7, 2⟩ (by decide)⟩

/-- C12: normalisation is idempotent: for every `n` and every `d ≠ 0`, if
`r = construct(n, d)` then `construct(r.numerator, r.denominator)` succeeds and
is the identical (numerator, denominator) pair. -/
theorem construct_idempotent (n d : Int) (hd : d ≠ 0) :
    ∃ r, construct n d = .ok r ∧ construct r.numerator r.denominator = .ok r := by
  obtain ⟨r, hr, hv, _⟩ := setValue_spec n d hd
  exact ⟨r, hr, setValue_of_valid r hv⟩

theorem construct_idempotent_witness :
    construct 12 (-18) = .ok ⟨-2, 3⟩ ∧ construct (-2) 3 = .ok ⟨-2, 3⟩ ∧
      ∃ r, construct 12 (-18) = .ok r ∧ construct r.numerator r.denominator = .ok r :=
  ⟨by decide, by decide, construct_idempotent 12 (-18) (by decide)⟩

/-- C19: construction yields a canonical representative: for all `(n1, d1)` and
`(n2, d2)` with `d1 ≠ 0` and `d2 ≠ 0`, if `n1*d2 = n2*d1` then `construct(n1, d1)`
and `construct(n2, d2)` both succeed with the identical (numerator, denominator)
pair. -/
theorem construct_canonical (n₁ d₁ n₂ d₂ : Int) (h₁ : d₁ ≠ 0) (h₂ : d₂ ≠ 0)
    (h : n₁ * d₂ = n₂ * d₁) :
    ∃ r, construct n₁ d₁ = .ok r ∧ construct n₂ d₂ = .ok r := by
  obtain ⟨r, hr, _⟩ := setValue_spec n₁ d₁ h₁
  refine ⟨r, hr, ?_⟩
  rw [construct, ← setValue_congr n₁ d₁ n₂ d₂ h₁ h₂ h]
  exact hr

theorem construct_canonical_witness :
    construct 6 (-4) = .ok ⟨-3, 2⟩ ∧ construct (-9) 6 = .ok ⟨-3, 2⟩ ∧
      ∃ r, construct 6 (-4) = .ok r ∧ construct (-9) 6 = .ok r :=
  ⟨by decide, by decide, construct_canonical 6 (-4) (-9) 6 (by decide) (by decide) (by decide)⟩

/-! ## The greatest common divisor and the least common multiple -/

/-- The loop of `gcd` reaches its exit within `b + 1` tests of its condition, for
arguments of either sign, and `gcd` is the value it returns. -/
theorem gcdRun_eq (fuel : Nat) :
    ∀ a b : Int, b.toNat < fuel → gcdRun fuel a b = some (gcd a b) := by
  induction fuel with
  | zero => intro a b h; omega
  | succ k ih =>
    intro a b h
    rw [gcd_unfold, gcdRun]
    split
    · rename_i hb
      have hlt := Int.tmod_lt_of_pos a hb
      exact ih b (Int.tmod a b) (by omega)
    · rfl

/-- On non-negative arguments `gcd` is the greatest common divisor. -/
theorem gcd_of_nonneg (a b : Int) (ha : 0 ≤ a) (hb : 0 ≤ b) :
    gcd a b = ((Int.gcd a b : Nat) : Int) := by
  have h := gcd_abs_eq a b hb
  rwa [abs, if_neg (by omega)] at h

/-- C17: for all non-negative `a` and `b`, the loop in `gcd(a, b)` terminates
(any budget above `b` lets it reach its exit) and returns the greatest common
divisor of `a` and `b`: a non-negative common divisor that every common divisor
divides; `gcd(0, b) = b` and `gcd(a, 0) = a`. -/
theorem gcd_correct (a b : Int) (ha : 0 ≤ a) (hb : 0 ≤ b) :
    (∀ fuel : Nat, b.toNat < fuel → gcdRun fuel a b = some (gcd a b)) ∧
      gcd a b = ((Int.gcd a b : Nat) : Int) ∧ 0 ≤ gcd a b ∧
      gcd a b ∣ a ∧ gcd a b ∣ b ∧ (∀ c : Int, c ∣ a → c ∣ b → c ∣ gcd a b) ∧
      gcd 0 b = b ∧ gcd a 0 = a := by
  have hg := gcd_of_nonneg a b ha hb
  refine ⟨fun fuel h => gcdRun_eq fuel a b h, hg, ?_, ?_, ?_, ?_, ?_, ?_⟩
  · rw [hg]; exact Int.ofNat_nonneg _
  · rw [hg]; exact Int.gcd_dvd_left
  · rw [hg]; exact Int.gcd_dvd_right
  · intro c h1 h2
    rw [hg]
    exact Int.dvd_gcd h1 h2
  · rw [gcd_of_nonneg 0 b (le_refl 0) hb, Int.gcd_zero_left]
    omega
  · rw [gcd_unfold, if_neg (lt_irrefl 0)]

theorem gcd_correct_witness :
    gcd 12 18 = 6 ∧ gcdRun 19 12 18 = some 6 ∧ gcdRun 2 12 18 = none ∧
      ((∀ fuel : Nat, (18 : Int).toNat < fuel → gcdRun fuel 12 18 = some (gcd 12 18)) ∧
        gcd 12 18 = ((Int.gcd 12 18 : Nat) : Int) ∧ 0 ≤ gcd 12 18 ∧
        gcd 12 18 ∣ 12 ∧ gcd 12 18 ∣ 18 ∧
        (∀ c : Int, c ∣ 12 → c ∣ 18 → c ∣ gcd 12 18) ∧
        gcd 0 18 = 18 ∧ gcd 12 0 = 12) :=
  ⟨by decide, by decide, by decide, gcd_correct 12 18 (by decide) (by decide)⟩

/-- C18, evaluated where it fails: `gcd(0, -5)` is 0 because the loop is not
entered for a negative `b`, so `lcm(0, -5)` divides by zero; and `gcd(-3, -5)`
is `-3`, so `lcm(-3, -5)` is the negative number `-5`. -/
theorem lcm_negative_arguments :
    gcd 0 (-5) = 0 ∧ lcm 0 (-5) = .error .divideByZero ∧
      gcd (-3) (-5) = -3 ∧ lcm (-3) (-5) = .ok (-5) := by
  decide

/-! ## Formatting -/

/-- The remainder of a truncating division by a positive number is smaller than
the divisor in absolute value. -/
theorem abs_tmod_lt (a b : Int) (hb : 0 < b) : abs (Int.tmod a b) < b := by
  rw [abs_eq_natAbs]
  obtain ⟨n, rfl⟩ := Int.eq_ofNat_of_zero_le (le_of_lt hb)
  have hn : 0 < n := by exact_mod_cast hb
  cases a with
  | ofNat m =>
    have h := Nat.mod_lt m hn
    show (((m % n : Nat) : Int).natAbs : Int) < (n : Int)
    rw [Int.natAbs_cast]
    exact_mod_cast h
  | negSucc m =>
    have h := Nat.mod_lt (m + 1) hn
    show ((-(((m + 1) % n : Nat) : Int)).natAbs : Int) < (n : Int)
    rw [Int.natAbs_neg, Int.natAbs_cast]
    exact_mod_cast h

/-- The string that `toMixed` builds for an improper fraction: the integer part
and a space, followed by the fractional part only when the remainder is not
zero. -/
theorem toMixed_of_ge (f : Fraction) (hd : 0 < f.denominator)
    (hge : abs f.numerator ≥ f.denominator) :
    toMixed f = .ok
      (if Int.tmod f.numerator f.denominator ≠ 0 then
        (to_string (Int.tdiv f.numerator f.denominator) ++ " ") ++
          toStringPair (abs (Int.tmod f.numerator f.denominator)) f.denominator
      else to_string (Int.tdiv f.numerator f.denominator) ++ " ") := by
  simp only [toMixed, if_pos hge, checkedDiv, checkedMod, if_neg (ne_of_gt hd)]
  rfl

/-- For a whole number the string that `toMixed` builds ends in the separator. -/
theorem toMixed_whole (f : Fraction) (hd : 0 < f.denominator)
    (hge : abs f.numerator ≥ f.denominator)
    (hn : Int.tmod f.numerator f.denominator = 0) :
    toMixed f = .ok (to_string (Int.tdiv f.numerator f.denominator) ++ " ") := by
  rw [toMixed_of_ge f hd hge, if_neg (not_not.mpr hn)]

/-- C13: for every valid Fraction with `|numerator| >= denominator` whose
remainder `n = numerator % denominator` is not zero, `toMixed()` returns exactly
the integer part `i = numerator / denominator`, a space, `abs(n)`, a `/` and the
denominator, where `numerator = i*denominator + n`, `|n| < denominator`, and the
fractional part is printed without a sign. -/
theorem toMixed_improper (f : Fraction) (hf : Valid f)
    (hge : abs f.numerator ≥ f.denominator)
    (hn : Int.tmod f.numerator f.denominator ≠ 0) :
    toMixed f = .ok (to_string (Int.tdiv f.numerator f.denominator) ++ " " ++
        to_string (abs (Int.tmod f.numerator f.denominator)) ++ "/" ++
        to_string f.denominator) ∧
      f.numerator = Int.tdiv f.numerator f.denominator * f.denominator +
        Int.tmod f.numerator f.denominator ∧
      abs (Int.tmod f.numerator f.denominator) < f.denominator ∧
      to_string (abs (Int.tmod f.numerator f.denominator)) =
        Nat.repr (Int.tmod f.numerator f.denominator).natAbs := by
  refine ⟨?_, (Int.tdiv_add_tmod' _ _).symm, abs_tmod_lt _ _ hf.1, ?_⟩
  · rw [toMixed_of_ge f hf.1 hge, if_pos hn]
    simp only [toStringPair, String.empty_append, String.append_assoc]
  · rw [abs_eq_natAbs, to_string, if_neg (by omega), Int.natAbs_cast]

theorem toMixed_improper_witness :
    construct 7 2 = .ok ⟨7, 2⟩ ∧ toMixed ⟨7, 2⟩ = .ok "3 1/2" ∧
      toMixed ⟨-7, 3⟩ = .ok "-2 1/3" ∧
      (toMixed ⟨7, 2⟩ = .ok (to_string (Int.tdiv 7 2) ++ " " ++
          to_string (abs (Int.tmod 7 2)) ++ "/" ++ to_string 2) ∧
        (7 : Int) = Int.tdiv 7 2 * 2 + Int.tmod 7 2 ∧
        abs (Int.tmod 7 2) < 2 ∧
        to_string (abs (Int.tmod 7 2)) = Nat.repr (Int.tmod 7 2).natAbs) :=
  ⟨by decide, by decide, by decide,
    toMixed_improper ⟨7, 2⟩ (by decide) (by decide) (by decide)⟩

/-- C14, evaluated where it fails: `Fraction(4, 2)` is stored as `2/1`, and
`toMixed()` returns the integer part followed by a space, `"2 "`, because the
separator is appended before the remainder is tested; it does not return `"2"`. -/
theorem toMixed_whole_trailing_space :
    construct 4 2 = .ok ⟨2, 1⟩ ∧ toMixed ⟨2, 1⟩ = .ok "2 " ∧ toMixed ⟨2, 1⟩ ≠ .ok "2" := by
  decide

/-- C15, as the code has it: `Fraction(-7, 2).toMixed()` returns exactly the string
`"-3 1/2"`; the remainder `-1` is printed through `abs`. -/
theorem toMixed_neg_seven_halves :
    construct (-7) 2 = .ok ⟨-7, 2⟩ ∧ toMixed ⟨-7, 2⟩ = .ok "-3 1/2" := by
  decide

theorem toMixed_neg_seven_halves_counterexample :
    ¬ ∃ f, construct (-7) 2 = .ok f ∧ toMixed f = .ok "-3 -1/2" := by
  rintro ⟨f, hf, hm⟩
  have h : construct (-7) 2 = .ok ⟨-7, 2⟩ := by decide
  rw [h] at hf
  injection hf with hf
  subst hf
  revert hm
  decide

/-- For every valid Fraction with `|numerator| < denominator`, `toMixed()`
returns `"0"` when the numerator is 0 and otherwise exactly `toString()`, where
`toString()` is the decimal numerator, a `/` and the decimal denominator of the
stored pair; over unbounded integers `construct(0, d).toString()` is `"0/1"` for
every `d ≠ 0`. -/
theorem toMixed_proper (f : Fraction) (_hf : Valid f)
    (hlt : abs f.numerator < f.denominator) :
    (f.numerator = 0 → toMixed f = .ok "0") ∧
      (f.numerator ≠ 0 → toMixed f = .ok (toString f)) ∧
      toString f = to_string f.numerator ++ "/" ++ to_string f.denominator ∧
      (∀ d : Int, d ≠ 0 → ∃ z, construct 0 d = .ok z ∧ toString z = "0/1") := by
  have hnge : ¬ abs f.numerator ≥ f.denominator := not_le.mpr hlt
  refine ⟨?_, ?_, ?_, ?_⟩
  · intro h0
    simp only [toMixed, if_neg hnge, if_pos h0]
    rfl
  · intro h0
    simp only [toMixed, if_neg hnge, if_neg h0]
    rfl
  · simp only [toString, toStringPair, String.empty_append]
  · intro d hd
    obtain ⟨z, hz, hv, he⟩ := setValue_spec 0 d hd
    have h0 : z.numerator = 0 := by
      rw [zero_mul] at he
      rcases mul_eq_zero.mp he with h | h
      · exact h
      · exact absurd h hd
    have h1 : z.denominator = 1 := hv.2.2 h0
    refine ⟨z, hz, ?_⟩
    rw [toString, h0, h1]
    decide

/-! ## 32-bit arithmetic -/

/-- A positive first argument keeps the result of `gcd` positive, whatever the
second argument is. -/
theorem gcd_pos_of_pos_left (n : Nat) :
    ∀ a b : Int, b.toNat ≤ n → 0 < a → 0 < gcd a b := by
  induction n with
  | zero =>
    intro a b hb ha
    rw [gcd_unfold, if_neg (by omega)]
    exact ha
  | succ k ih =>
    intro a b hb ha
    rw [gcd_unfold]
    split
    · rename_i hpos
      have hlt := Int.tmod_lt_of_pos a hpos
      exact ih b (Int.tmod a b) (by omega) hpos
    · exact ha

/-- A positive second argument makes the result of `gcd` positive, whatever the
first argument is. -/
theorem gcd_pos_of_pos_right (a b : Int) (hb : 0 < b) : 0 < gcd a b := by
  rw [gcd_unfold, if_pos hb]
  exact gcd_pos_of_pos_left (Int.tmod a b).toNat b (Int.tmod a b) (le_refl _) hb

/-- A value in the 32-bit range wraps to itself. -/
theorem wrap_of_inRange (x : Int) (h : InRange32 x) : wrap x = x := by
  unfold InRange32 at h
  unfold wrap
  omega

/-- On a positive denominator the 32-bit `setValue` returns: its divisor is
positive. -/
theorem setValue32_ok (n d : Int) (hd : 0 < d) : ∃ r, setValue32 n d = .ok r := by
  have hsn : signNormalize32 n d = (n, d) := by
    unfold signNormalize32
    rw [if_neg (by omega)]
  have habs : abs32 d = d := by
    unfold abs32
    rw [if_neg (by omega)]
  have hc : gcd (abs32 n) d ≠ 0 := ne_of_gt (gcd_pos_of_pos_right _ d hd)
  refine ⟨⟨wrap (Int.tdiv n (gcd (abs32 n) d)), wrap (Int.tdiv d (gcd (abs32 n) d))⟩, ?_⟩
  simp only [setValue32, if_neg (ne_of_gt hd), hsn, habs, checkedDiv32, if_neg hc]
  rfl

/-- When the product of two positive arguments does not overflow, the 32-bit
`lcm` returns what the unbounded one returns, a positive number. -/
theorem lcm32_ok (a b : Int) (ha : 0 < a) (hb : 0 < b) (hab : a * b ≤ 2147483647) :
    ∃ l, lcm32 a b = .ok l ∧ lcm a b = .ok l ∧ 0 < l := by
  obtain ⟨l, hl, hlpos, hlg, _, _⟩ := lcm_ok a b ha hb
  have hpos : 0 < a * b := mul_pos ha hb
  have hg : 0 < gcd a b := gcd_pos_of_pos_right a b hb
  have hgpos : (0 : Int) < ((Int.gcd a b : Nat) : Int) := by
    exact_mod_cast Int.gcd_pos_of_ne_zero_left b (ne_of_gt ha)
  have hle : l ≤ a * b := by
    rw [← hlg]
    exact le_mul_of_one_le_right (le_of_lt hlpos) hgpos
  have hw : wrap (a * b) = a * b := wrap_of_inRange _ ⟨by omega, hab⟩
  have habs : abs32 (a * b) = a * b := by
    unfold abs32
    rw [if_neg (by omega)]
  have habs' : abs (a * b) = a * b := by
    unfold abs
    rw [if_neg (by omega)]
  have hdiv : Int.tdiv (a * b) (gcd a b) = l := by
    simp only [lcm, checkedDiv, if_neg (ne_of_gt hg), habs'] at hl
    injection hl
  refine ⟨l, ?_, hl, hlpos⟩
  simp only [lcm32, hw, habs, checkedDiv32, if_neg (ne_of_gt hg), hdiv]
  rw [wrap_of_inRange l ⟨by omega, by omega⟩]

/-- When the product of the two positive denominators does not overflow, the
32-bit `addByValue` returns a Fraction. -/
theorem addByValue32_ok (x : Fraction) (bn bd : Int) (hx : 0 < x.denominator) (hb : 0 < bd)
    (hprod : x.denominator * bd ≤ 2147483647) : ∃ r, x.addByValue32 bn bd = .ok r := by
  obtain ⟨l, hl, _, hlpos⟩ := lcm32_ok x.denominator bd hx hb hprod
  obtain ⟨r, hr⟩ := setValue32_ok
    (wrap (wrap (x.numerator * wrap (Int.tdiv l x.denominator)) +
      wrap (bn * wrap (Int.tdiv l bd)))) l hlpos
  refine ⟨r, ?_⟩
  simp only [addByValue32, hl, checkedDiv32, if_neg (ne_of_gt hx), if_neg (ne_of_gt hb), bind,
    Except.bind, construct32]
  exact hr

/-- C20, as the code has it: with 32-bit `int` and wraparound, for two Fractions
`a` and `b` that satisfy the invariant and whose product of denominators does
not overflow (`a.denominator * b.denominator <= 2^31 - 1`), `a + b`, `a - b` and
`a * b` return a Fraction; they do not raise the division-by-zero error. -/
theorem ops32_succeed_without_overflow (a b : Fraction) (ha : Valid a) (hb : Valid b)
    (_ha32 : Representable32 a) (_hb32 : Representable32 b)
    (hprod : a.denominator * b.denominator ≤ 2147483647) :
    (∃ r, add32 a b = .ok r) ∧ (∃ r, sub32 a b = .ok r) ∧ (∃ r, mul32 a b = .ok r) ∧
      add32 a b ≠ .error .denominatorZero ∧ sub32 a b ≠ .error .denominatorZero ∧
      mul32 a b ≠ .error .denominatorZero := by
  have hadd : ∃ r, add32 a b = .ok r := addByValue32_ok a _ _ ha.1 hb.1 hprod
  have hsub : ∃ r, sub32 a b = .ok r := addByValue32_ok a _ _ ha.1 hb.1 hprod
  have hmul : ∃ r, mul32 a b = .ok r := by
    have hpos : 0 < a.denominator * b.denominator := mul_pos ha.1 hb.1
    have hw : wrap (a.denominator * b.denominator) = a.denominator * b.denominator :=
      wrap_of_inRange _ ⟨by omega, hprod⟩
    obtain ⟨r, hr⟩ := setValue32_ok (wrap (a.numerator * b.numerator))
      (a.denominator * b.denominator) hpos
    exact ⟨r, by rw [mul32, construct32, hw, hr]⟩
  refine ⟨hadd, hsub, hmul, ?_, ?_, ?_⟩
  · obtain ⟨r, hr⟩ := hadd
    rw [hr]
    exact fun h => Except.noConfusion h
  · obtain ⟨r, hr⟩ := hsub
    rw [hr]
    exact fun h => Except.noConfusion h
  · obtain ⟨r, hr⟩ := hmul
    rw [hr]
    exact fun h => Except.noConfusion h

theorem ops32_succeed_without_overflow_witness :
    add32 ⟨1, 6⟩ ⟨-2, 3⟩ = .ok ⟨-1, 2⟩ ∧ sub32 ⟨1, 6⟩ ⟨-2, 3⟩ = .ok ⟨5, 6⟩ ∧
      mul32 ⟨1, 6⟩ ⟨-2, 3⟩ = .ok ⟨-1, 9⟩ ∧
      ((∃ r, add32 ⟨1, 6⟩ ⟨-2, 3⟩ = .ok r) ∧ (∃ r, sub32 ⟨1, 6⟩ ⟨-2, 3⟩ = .ok r) ∧
        (∃ r, mul32 ⟨1, 6⟩ ⟨-2, 3⟩ = .ok r) ∧
        add32 ⟨1, 6⟩ ⟨-2, 3⟩ ≠ .error .denominatorZero ∧
        sub32 ⟨1, 6⟩ ⟨-2, 3⟩ ≠ .error .denominatorZero ∧
        mul32 ⟨1, 6⟩ ⟨-2, 3⟩ ≠ .error .denominatorZero) :=
  ⟨by decide, by decide, by decide,
    ops32_succeed_without_overflow ⟨1, 6⟩ ⟨-2, 3⟩ (by decide) (by decide) (by decide)
      (by decide) (by decide)⟩

theorem ops32_overflow_counterexample :
    construct32 1 65536 = .ok ⟨1, 65536⟩ ∧ Valid ⟨1, 65536⟩ ∧
      Representable32 ⟨1, 65536⟩ ∧
      add32 ⟨1, 65536⟩ ⟨1, 65536⟩ = .error .denominatorZero ∧
      sub32 ⟨1, 65536⟩ ⟨1, 65536⟩ = .error .denominatorZero ∧
      mul32 ⟨1, 65536⟩ ⟨1, 65536⟩ = .error .denominatorZero := by
  decide

/-! ## Construction and division on 32-bit `int` -/

/-- With a denominator that is not zero the 32-bit `setValue` does not throw: it
divides by its `c`, which is undefined when `c` is 0 and stores the two
quotients otherwise. -/
theorem setValue32_of_ne_zero (n d : Int) (hd : d ≠ 0) :
    setValue32 n d =
      if gcd (abs32 (signNormalize32 n d).1) (abs32 (signNormalize32 n d).2) = 0 then
        .error .divideByZero
      else
        .ok ⟨wrap (Int.tdiv (signNormalize32 n d).1
              (gcd (abs32 (signNormalize32 n d).1) (abs32 (signNormalize32 n d).2))),
          wrap (Int.tdiv (signNormalize32 n d).2
              (gcd (abs32 (signNormalize32 n d).1) (abs32 (signNormalize32 n d).2)))⟩ := by
  simp only [setValue32, if_neg hd, checkedDiv32]
  split <;> rfl

/-- The 32-bit `setValue` throws exactly on a zero denominator. -/
theorem setValue32_throws_iff (n d : Int) :
    setValue32 n d = .error .denominatorZero ↔ d = 0 := by
  constructor
  · intro h
    by_contra hd
    rw [setValue32_of_ne_zero n d hd] at h
    split at h
    · exact absurd h (by decide)
    · cases h
  · intro hd
    simp only [setValue32, if_pos hd]

/-- On 32-bit `int` the divisor `c` of `setValue` is 0 for exactly one pair with
a nonzero denominator: `(0, -2^31)`, whose denominator cannot be negated. -/
theorem divisor32_eq_zero_iff (n d : Int) (hn : InRange32 n) (hd : InRange32 d) (hd0 : d ≠ 0) :
    gcd (abs32 (signNormalize32 n d).1) (abs32 (signNormalize32 n d).2) = 0 ↔
      n = 0 ∧ d = -2147483648 := by
  unfold InRange32 at hn hd
  by_cases hmin : d = -2147483648
  · subst hmin
    have hp : signNormalize32 n (-2147483648) = (wrap (-n), -2147483648) := by
      simp only [signNormalize32]
      rw [if_pos (by decide)]
      rfl
    have ha : abs32 (-2147483648) = -2147483648 := by decide
    have hkey : abs32 (wrap (-n)) = 0 ↔ n = 0 := by
      unfold abs32 wrap
      constructor
      · intro h
        split at h <;> omega
      · intro h
        subst h
        decide
    rw [hp]
    show gcd (abs32 (wrap (-n))) (abs32 (-2147483648)) = 0 ↔ _
    rw [ha, gcd_unfold, if_neg (by decide)]
    constructor
    · intro h
      exact ⟨hkey.mp h, rfl⟩
    · rintro ⟨h, _⟩
      exact hkey.mpr h
  · have hpos : 0 < abs32 (signNormalize32 n d).2 := by
      by_cases hneg : d < 0
      · have hp : signNormalize32 n d = (wrap (-n), wrap (-d)) := by
          unfold signNormalize32
          rw [if_pos hneg]
        rw [hp]
        show 0 < abs32 (wrap (-d))
        unfold abs32 wrap
        split <;> omega
      · have hp : signNormalize32 n d = (n, d) := by
          unfold signNormalize32
          rw [if_neg hneg]
        rw [hp]
        show 0 < abs32 d
        unfold abs32
        rw [if_neg hneg]
        omega
    constructor
    · intro h
      exact absurd h (ne_of_gt (gcd_pos_of_pos_right _ _ hpos))
    · rintro ⟨_, h⟩
      exact absurd h hmin

/-- On 32-bit `int`, `construct(0, d)` stores `0/1` for every denominator other
than 0 and `-2^31`. -/
theorem construct32_zero_eq (d : Int) (hd : InRange32 d) (hd0 : d ≠ 0)
    (hmin : d ≠ -2147483648) : construct32 0 d = .ok ⟨0, 1⟩ := by
  unfold InRange32 at hd
  obtain ⟨m, hm, hp⟩ : ∃ m : Int, 0 < m ∧ signNormalize32 0 d = (0, m) := by
    by_cases hneg : d < 0
    · refine ⟨-d, by omega, ?_⟩
      unfold signNormalize32
      rw [if_pos hneg]
      have h0 : wrap (-0) = 0 := by decide
      have h1 : wrap (-d) = -d := wrap_of_inRange _ ⟨by omega, by omega⟩
      rw [h0, h1]
    · refine ⟨d, by omega, ?_⟩
      unfold signNormalize32
      rw [if_neg hneg]
  have ha0 : abs32 0 = 0 := by decide
  have ham : abs32 m = m := by
    unfold abs32
    rw [if_neg (by omega)]
  have hg : gcd 0 m = m := by
    rw [gcd_of_nonneg 0 m (le_refl 0) (le_of_lt hm), Int.gcd_zero_left]
    omega
  have hw0 : wrap 0 = 0 := by decide
  have hw1 : wrap 1 = 1 := by decide
  simp only [construct32, setValue32, if_neg hd0, hp, ha0, ham, hg, checkedDiv32,
    if_neg (ne_of_gt hm), Int.zero_tdiv, Int.tdiv_self (ne_of_gt hm), hw0, hw1]
  rfl

/-- C1, as the code has it: on 32-bit `int` with wraparound, constructing a
Fraction from `(n, d)` throws the division-by-zero error exactly when `d = 0`
(`construct(n, 0)` fails so for every `n`), and the construction succeeds
exactly when `d ≠ 0` and `(n, d)` is not `(0, -2^31)`. -/
theorem construct32_fails_iff (n d : Int) (hn : InRange32 n) (hd : InRange32 d) :
    construct32 n 0 = .error .denominatorZero ∧
      (construct32 n d = .error .denominatorZero ↔ d = 0) ∧
      ((∃ r, construct32 n d = .ok r) ↔ d ≠ 0 ∧ ¬ (n = 0 ∧ d = -2147483648)) := by
  refine ⟨(setValue32_throws_iff n 0).mpr rfl, setValue32_throws_iff n d, ?_⟩
  constructor
  · rintro ⟨r, hr⟩
    have hd0 : d ≠ 0 := by
      intro h
      rw [construct32, (setValue32_throws_iff n d).mpr h] at hr
      cases hr
    refine ⟨hd0, fun hex => ?_⟩
    rw [construct32, setValue32_of_ne_zero n d hd0,
      if_pos ((divisor32_eq_zero_iff n d hn hd hd0).mpr hex)] at hr
    cases hr
  · rintro ⟨hd0, hex⟩
    rw [construct32, setValue32_of_ne_zero n d hd0,
      if_neg (fun h => hex ((divisor32_eq_zero_iff n d hn hd hd0).mp h))]
    exact ⟨_, rfl⟩

theorem construct32_fails_iff_witness :
    construct32 12 (-18) = .ok ⟨-2, 3⟩ ∧ construct32 5 0 = .error .denominatorZero ∧
      construct32 7 (-2147483648) = .ok ⟨-1, -306783378⟩ ∧
      (construct32 12 0 = .error .denominatorZero ∧
        (construct32 12 (-18) = .error .denominatorZero ↔ (-18 : Int) = 0) ∧
        ((∃ r, construct32 12 (-18) = .ok r) ↔
          (-18 : Int) ≠ 0 ∧ ¬ ((12 : Int) = 0 ∧ (-18 : Int) = -2147483648))) :=
  ⟨by decide, by decide, by decide,
    construct32_fails_iff 12 (-18) (by decide) (by decide)⟩

theorem construct32_zero_intMin_counterexample :
    InRange32 0 ∧ InRange32 (-2147483648) ∧ (-2147483648 : Int) ≠ 0 ∧
      construct32 0 (-2147483648) = .error .divideByZero ∧
      ¬ ∃ r, construct32 0 (-2147483648) = .ok r := by
  have h : construct32 0 (-2147483648) = .error .divideByZero := by decide
  refine ⟨by decide, by decide, by decide, h, ?_⟩
  rintro ⟨r, hr⟩
  rw [h] at hr
  cases hr

/-- C6, as the code has it: for valid Fractions `x` and `y` on 32-bit `int` with
wraparound, `x / y` fails with the division-by-zero error whenever the numerator
of `y` is 0 (so `x / Fraction(0, d)` fails for every `d` other than 0 and
`-2^31`), and when the product `x.denominator * y.numerator` does not overflow
it fails with that error only then; otherwise, over unbounded integers, it
returns what `construct(x.numerator * y.denominator, x.denominator * y.numerator)`
returns. -/
theorem div32_fails_of_zero_numerator (x y : Fraction) (hx : Valid x) (hy : Valid y)
    (_hx32 : Representable32 x) (_hy32 : Representable32 y) :
    (y.numerator = 0 → div32 x y = .error .denominatorZero) ∧
      (InRange32 (x.denominator * y.numerator) →
        (div32 x y = .error .denominatorZero ↔ y.numerator = 0)) ∧
      (∀ d : Int, InRange32 d → d ≠ 0 → d ≠ -2147483648 →
        ∃ z, construct32 0 d = .ok z ∧ div32 x z = .error .denominatorZero) ∧
      (y.numerator ≠ 0 → ∃ r, div x y = .ok r ∧
        construct (x.numerator * y.denominator) (x.denominator * y.numerator) = .ok r) := by
  have hw0 : wrap 0 = 0 := by decide
  have hfail : ∀ z : Fraction, z.numerator = 0 → div32 x z = .error .denominatorZero := by
    intro z hz
    rw [div32, construct32, hz, mul_zero, hw0]
    exact (setValue32_throws_iff _ 0).mpr rfl
  refine ⟨hfail y, ?_, ?_, (div_fails_iff_zero_numerator x y hx hy).2.2.1⟩
  · intro hr
    rw [div32, construct32, wrap_of_inRange _ hr, setValue32_throws_iff]
    constructor
    · intro h
      rcases mul_eq_zero.mp h with h | h
      · exact absurd h (ne_of_gt hx.1)
      · exact h
    · intro h
      rw [h, mul_zero]
  · intro d hd hd0 hmin
    exact ⟨⟨0, 1⟩, construct32_zero_eq d hd hd0 hmin, hfail ⟨0, 1⟩ rfl⟩

theorem div32_fails_of_zero_numerator_witness :
    construct32 0 5 = .ok ⟨0, 1⟩ ∧ div32 ⟨1, 2⟩ ⟨0, 1⟩ = .error .denominatorZero ∧
      div32 ⟨1, 2⟩ ⟨-3, 4⟩ = .ok ⟨-2, 3⟩ ∧ div ⟨1, 2⟩ ⟨-3, 4⟩ = .ok ⟨-2, 3⟩ ∧
      (((-3 : Int) = 0 → div32 ⟨1, 2⟩ ⟨-3, 4⟩ = .error .denominatorZero) ∧
        (InRange32 (2 * -3) →
          (div32 ⟨1, 2⟩ ⟨-3, 4⟩ = .error .denominatorZero ↔ (-3 : Int) = 0)) ∧
        (∀ d : Int, InRange32 d → d ≠ 0 → d ≠ -2147483648 →
          ∃ z, construct32 0 d = .ok z ∧ div32 ⟨1, 2⟩ z = .error .denominatorZero) ∧
        ((-3 : Int) ≠ 0 → ∃ r, div ⟨1, 2⟩ ⟨-3, 4⟩ = .ok r ∧
          construct (1 * 4) (2 * -3) = .ok r)) :=
  ⟨by decide, by decide, by decide, by decide,
    div32_fails_of_zero_numerator ⟨1, 2⟩ ⟨-3, 4⟩ (by decide) (by decide) (by decide)
      (by decide)⟩

theorem div32_overflow_counterexample :
    construct32 1 65536 = .ok ⟨1, 65536⟩ ∧ construct32 65536 1 = .ok ⟨65536, 1⟩ ∧
      Valid ⟨1, 65536⟩ ∧ Valid ⟨65536, 1⟩ ∧
      Representable32 ⟨1, 65536⟩ ∧ Representable32 ⟨65536, 1⟩ ∧
      div32 ⟨1, 65536⟩ ⟨65536, 1⟩ = .error .denominatorZero ∧ (65536 : Int) ≠ 0 := by
  decide

/-- C16, as the code has it: for every valid Fraction with
`|numerator| < denominator`, `toMixed()` returns `"0"` when the numerator is 0
and otherwise exactly `toString()`, where `toString()` is the decimal numerator,
a `/` and the decimal denominator of the stored pair; on 32-bit `int` with
wraparound `construct(0, d).toString()` is `"0/1"` for every `d` other than 0
and `-2^31`. -/
theorem toMixed_proper_stored (f : Fraction) (hf : Valid f)
    (hlt : abs f.numerator < f.denominator) :
    (f.numerator = 0 → toMixed f = .ok "0") ∧
      (f.numerator ≠ 0 → toMixed f = .ok (toString f)) ∧
      toString f = to_string f.numerator ++ "/" ++ to_string f.denominator ∧
      (∀ d : Int, InRange32 d → d ≠ 0 → d ≠ -2147483648 →
        ∃ z, construct32 0 d = .ok z ∧ toString z = "0/1") := by
  obtain ⟨h1, h2, h3, _⟩ := toMixed_proper f hf hlt
  refine ⟨h1, h2, h3, ?_⟩
  intro d hd hd0 hmin
  exact ⟨⟨0, 1⟩, construct32_zero_eq d hd hd0 hmin, by decide⟩

theorem toMixed_proper_stored_witness :
    construct32 2 4 = .ok ⟨1, 2⟩ ∧ construct 2 4 = .ok ⟨1, 2⟩ ∧
      toString ⟨1, 2⟩ = "1/2" ∧ toMixed ⟨1, 2⟩ = .ok "1/2" ∧
      toMixed ⟨0, 1⟩ = .ok "0" ∧ construct32 0 (-7) = .ok ⟨0, 1⟩ ∧
      (((1 : Int) = 0 → toMixed ⟨1, 2⟩ = .ok "0") ∧
        ((1 : Int) ≠ 0 → toMixed ⟨1, 2⟩ = .ok (toString ⟨1, 2⟩)) ∧
        toString ⟨1, 2⟩ = to_string 1 ++ "/" ++ to_string 2 ∧
        (∀ d : Int, InRange32 d → d ≠ 0 → d ≠ -2147483648 →
          ∃ z, construct32 0 d = .ok z ∧ toString z = "0/1")) :=
  ⟨by decide, by decide, by decide, by decide, by decide, by decide,
    toMixed_proper_stored ⟨1, 2⟩ (by decide) (by decide)⟩

theorem toString_construct32_zero_counterexample :
    InRange32 (-2147483648) ∧ (-2147483648 : Int) ≠ 0 ∧
      ¬ ∃ z, construct32 0 (-2147483648) = .ok z ∧ toString z = "0/1" := by
  refine ⟨by decide, by decide, ?_⟩
  rintro ⟨z, hz, _⟩
  have h : construct32 0 (-2147483648) = .error .divideByZero := by decide
  rw [h] at hz
  cases hz

end Fraction
